import Mathlib

/-!
Shallow embedding of the fastcwt crate (src/target/package/fastcwt-0.1.7/src/lib.rs,
the published revision; src/src/lib.rs differs only in the FFT backend dispatch,
the thread-batched loops and `find2power`, which computes the same padded size).

Modelling conventions:
* `f64` values are modelled as real numbers; the arithmetic the claims exercise
  is exact in double precision at the concrete inputs used.
* Rust's saturating float-to-`usize` cast is `f64AsUsize` (floor clamped at 0).
* A Rust panic (failed `assert!`, index out of bounds) is modelled as `none`.
* The FFT primitive (rustfft) is an external collaborator; the transform engine
  is parameterised by it as `fft : ℕ → List CF → List CF` (planned size, buffer).
* The rayon parallel loop in `FastCWT::cwt` guards one shared buffer with a
  mutex and `try_lock`; the model fixes the linearisation in which every lock
  acquisition succeeds, in scale-index order (the sequential schedule).
-/

namespace Fastcwt

noncomputable section

/-- Complex double pair, modelling `rustfft::num_complex::Complex<f64>`. -/
structure CF where
  re : ℝ
  im : ℝ

/-- Rust `as usize` on a finite nonnegative double: truncation; negative values
clamp to 0, matching Rust's saturating cast. -/
def f64AsUsize (x : ℝ) : ℕ := (⌊x⌋).toNat

/-- `usize::next_power_of_two`: the least power of two that is ≥ `n` (1 for 0). -/
def nextPow2 (n : ℕ) : ℕ := 2 ^ Nat.clog 2 n

/-- `ScaleTypes` from the crate. -/
inductive ScaleTypes
  | Linear
  | Log
  | LinFreq

/-- `Wavelet` struct. -/
structure Wavelet where
  width : ℕ
  imag_freq : Bool
  double_sided : Bool
  mother : List ℝ
  fb : ℝ

/-- `Wavelet::create`. -/
def Wavelet.create (bandwidth : ℝ) : Wavelet :=
  { width := 0, imag_freq := false, double_sided := false, mother := [], fb := bandwidth }

/-- The value pushed for index `w` in `Wavelet::generate`'s loop:
`norm * exp(-(tmp1^2)/2)` with `tmp1 = 2*(w*toradians)*fb - 2*pi*fb`,
`toradians = 2*pi/size`, `norm = sqrt(2*pi) * (1/pi)^0.25`. -/
def motherEntry (fb : ℝ) (size w : ℕ) : ℝ :=
  (Real.sqrt (2 * Real.pi) * (1 / Real.pi) ^ ((1 : ℝ) / 4)) *
    Real.exp (-((2 * ((w : ℝ) * (2 * Real.pi / (size : ℝ))) * fb - 2 * Real.pi * fb) ^ 2) / 2)

/-- `Wavelet::generate`: sets `width := size` and pushes `size` new values onto
the existing `mother` vector (the source never clears it). -/
def Wavelet.generate (wv : Wavelet) (size : ℕ) : Wavelet :=
  { wv with
    width := size
    mother := wv.mother ++ (List.range size).map (motherEntry wv.fb size) }

/-- `Scales` struct. -/
structure Scales where
  scales : List ℝ
  fs : ℕ
  num_scales : ℕ

/-- Entry `i` written by `Scales::calculate_logscale_array`'s loop:
`base^(power0 + dpower / ((f_num - 1) * i))`. The divisor `(f_num - 1) * i` is
`usize` arithmetic. At `i = 0` the source divides by `0.0` (a non-finite f64
result); Lean's division convention maps that exponent contribution to 0, so no
theorem below draws on the `i = 0` entry of the Log law. -/
def logscaleEntry (base : ℝ) (fs : ℕ) (f0 f1 : ℝ) (f_num i : ℕ) : ℝ :=
  let s0 : ℝ := (fs : ℝ) / f1
  let s1 : ℝ := (fs : ℝ) / f0
  let power0 := Real.log s0 / Real.log base
  let power1 := Real.log s1 / Real.log base
  let dpower := power1 - power0
  base ^ (power0 + dpower / (((f_num - 1) * i : ℕ) : ℝ))

/-- `Scales::calculate_logscale_array`: asserts `f1 as usize <= fs / 2`
(integer division on `fs`, truncating cast on `f1`), then fills the array. -/
def calculate_logscale_array (base : ℝ) (fs : ℕ) (f0 f1 : ℝ) (f_num : ℕ) :
    Option (List ℝ) :=
  if f64AsUsize f1 ≤ fs / 2 then
    some ((List.range f_num).map (logscaleEntry base fs f0 f1 f_num))
  else none

/-- `Scales::calculate_linscale_array`: asserts `f1 <= (fs / 2) as f64`
(integer division first), then writes `fs/f0 + (df/f_num)*i` to index
`f_num - i - 1`; as a function of the output index `j` the loop variable is
`i = f_num - 1 - j`. -/
def calculate_linscale_array (fs : ℕ) (f0 f1 : ℝ) (f_num : ℕ) : Option (List ℝ) :=
  if f1 ≤ ((fs / 2 : ℕ) : ℝ) then
    some ((List.range f_num).map fun j =>
      (fs : ℝ) / f0 + ((f1 - f0) / (f_num : ℝ)) * ((f_num - 1 - j : ℕ) : ℝ))
  else none

/-- `Scales::calculate_linfreq_array`: asserts `f1 <= fs as f64 / 2.0`, then
writes `s0 + (ds/f_num)*i` to index `i`. -/
def calculate_linfreq_array (fs : ℕ) (f0 f1 : ℝ) (f_num : ℕ) : Option (List ℝ) :=
  let s0 : ℝ := (fs : ℝ) / f1
  let s1 : ℝ := (fs : ℝ) / f0
  if f1 ≤ (fs : ℝ) / 2 then
    some ((List.range f_num).map fun i : ℕ => s0 + ((s1 - s0) / (f_num : ℝ)) * (i : ℝ))
  else none

/-- `Scales::create`: builds the struct and dispatches on the law; a failed
assert inside the law propagates as `none` (the construction panics, no value
reaches the caller). -/
def Scales.create (st : ScaleTypes) (afs : ℕ) (af0 af1 : ℝ) (af_num : ℕ) :
    Option Scales :=
  (match st with
    | ScaleTypes.Linear => calculate_linscale_array afs af0 af1 af_num
    | ScaleTypes.Log => calculate_logscale_array 2 afs af0 af1 af_num
    | ScaleTypes.LinFreq => calculate_linfreq_array afs af0 af1 af_num).map
    fun l => { scales := l, fs := afs, num_scales := af_num }

/-- The loop of `Scales::get_frequencies` after `n` iterations: pushes
`fs as f64 / scales[i]` for `i = 0, …, n-1`; an out-of-range index panics. -/
def getFreqLoop (s : Scales) : ℕ → Option (List ℝ)
  | 0 => some []
  | n + 1 => do
      let l ← getFreqLoop s n
      let x ← s.scales[n]?
      some (l ++ [(s.fs : ℝ) / x])

/-- `Scales::get_frequencies`: iterates over `0..p_freqs.len()`; only the
length of the argument is read. -/
def Scales.get_frequencies (s : Scales) (p_freqs : List ℝ) : Option (List ℝ) :=
  getFreqLoop s p_freqs.length

/-- `FastCWT` struct (0.1.7: a wavelet and the normalization flag). -/
structure FastCWT where
  wavelet : Wavelet
  use_normalization : Bool

/-- `FastCWT::create`. -/
def FastCWT.create (wavelet : Wavelet) (optplan : Bool) : FastCWT :=
  { wavelet := wavelet, use_normalization := optplan }

/-- `tmp` in `daughter_wavelet_multiplication`:
`min(maximum as usize, step as usize * n)` — the truncation applies to
`step = scale / 2.0` alone, and the truncated value is multiplied by `n`. -/
def dwmTmp (scale : ℝ) (i_size n : ℕ) : ℕ :=
  min (f64AsUsize ((i_size : ℝ) - 1)) (f64AsUsize (scale / 2) * n)

/-- One iteration (index `n`) of the loop in `daughter_wavelet_multiplication`;
an out-of-range buffer or mother index is a panic (`none`). `s1 = i_size - 1`. -/
def dwmEntry (mother : List ℝ) (scale : ℝ) (i_size : ℕ)
    (imaginary doublesided : Bool) (n : ℕ) (b : List CF) : Option (List CF) :=
  if doublesided then do
    let m ← mother[dwmTmp scale i_size n]?
    let c ← b[i_size - 1 - n]?
    if i_size - 1 - n < b.length then
      some (b.set (i_size - 1 - n)
        ⟨if imaginary then c.re * m else c.re * m * (-1), c.im * m⟩)
    else none
  else do
    let m ← mother[dwmTmp scale i_size n]?
    let c ← b[n]?
    if n < b.length then some (b.set n ⟨c.re * m, c.im * m⟩) else none

/-- The loop of `daughter_wavelet_multiplication` run for indices `0, …, k-1`
in order. -/
def dwmLoop (mother : List ℝ) (scale : ℝ) (i_size : ℕ)
    (imaginary doublesided : Bool) : ℕ → List CF → Option (List CF)
  | 0, b => some b
  | k + 1, b =>
      (dwmLoop mother scale i_size imaginary doublesided k b).bind
        (dwmEntry mother scale i_size imaginary doublesided k)

/-- `FastCWT::daughter_wavelet_multiplication`:
`endpoint = min((i_size/2.0) as usize, (i_size*2.0/scale) as usize)`, then the
loop over `0 .. endpoint`. -/
def daughter_wavelet_multiplication (b : List CF) (mother : List ℝ) (scale : ℝ)
    (i_size : ℕ) (imaginary doublesided : Bool) : Option (List CF) :=
  dwmLoop mother scale i_size imaginary doublesided
    (min (f64AsUsize ((i_size : ℝ) / 2)) (f64AsUsize ((i_size : ℝ) * 2 / scale))) b

/-- One iteration of the spectrum-mirroring loop in `cwt`:
`buffer[newsize - i] = buffer[i]`. -/
def mirrorStep (newsize i : ℕ) (b : List CF) : Option (List CF) := do
  let v ← b[i]?
  if newsize - i < b.length then some (b.set (newsize - i) v) else none

/-- The mirroring loop `for i in 1 .. newsize >> 1` run for `i = 1, …, k`. -/
def mirrorLoop (newsize : ℕ) : ℕ → List CF → Option (List CF)
  | 0, b => some b
  | k + 1, b => (mirrorLoop newsize k b).bind (mirrorStep newsize (k + 1))

/-- One iteration of the normalization loop: `buffer[n] = buffer[n] / newsize`
(complex divided by a real divides both parts). -/
def normStep (newsize n : ℕ) (b : List CF) : Option (List CF) := do
  let c ← b[n]?
  if n < b.length then
    some (b.set n ⟨c.re / (newsize : ℝ), c.im / (newsize : ℝ)⟩)
  else none

/-- The normalization loop `for n in 0 .. newsize` run for `n = 0, …, k-1`. -/
def normLoop (newsize : ℕ) : ℕ → List CF → Option (List CF)
  | 0, b => some b
  | k + 1, b => (normLoop newsize k b).bind (normStep newsize k)

/-- The body of one scale iteration in `cwt`: look up `scales.scales[i]`,
multiply by the daughter wavelet, run the FFT primitive on the whole buffer,
and normalize when the flag is set. -/
def scaleStep (fft : ℕ → List CF → List CF) (norm : Bool) (mother : List ℝ)
    (imaginary doublesided : Bool) (sc : Scales) (num newsize i : ℕ)
    (b : List CF) : Option (List CF) := do
  let s ← sc.scales[i]?
  let b' ← daughter_wavelet_multiplication b mother s num imaginary doublesided
  let b'' := fft b'.length b'
  if norm then normLoop newsize newsize b'' else some b''

/-- The per-scale phase of `cwt` run for scale indices `0, …, k-1` in order: the
source guards one shared buffer with a mutex, so the iterations mutate the same
buffer; this is the linearisation in which every `try_lock` succeeds. -/
def scaleLoop (fft : ℕ → List CF → List CF) (norm : Bool) (mother : List ℝ)
    (imaginary doublesided : Bool) (sc : Scales) (num newsize : ℕ) :
    ℕ → List CF → Option (List CF)
  | 0, b => some b
  | k + 1, b =>
      (scaleLoop fft norm mother imaginary doublesided sc num newsize k b).bind
        (scaleStep fft norm mother imaginary doublesided sc num newsize k)

/-- `FastCWT::cwt`, parameterised by the rustfft collaborator `fft` (argument
order: planned size, buffer; rustfft transforms in place, preserving length).
Steps: pad size, copy input to a complex buffer, one forward FFT, regenerate
the mother wavelet, mirror the upper half (`for i in 1 .. newsize >> 1`), then
the shared-buffer scale loop; the final shared buffer is returned. -/
def FastCWT.cwt (fft : ℕ → List CF → List CF) (e : FastCWT) (num : ℕ)
    (input : List ℝ) (sc : Scales) : Option (List CF) :=
  let newsize := nextPow2 num
  let buffer := input.map fun d => CF.mk d 0
  let buffer := fft buffer.length buffer
  let wv := e.wavelet.generate newsize
  (mirrorLoop newsize (newsize / 2 - 1) buffer).bind fun b =>
    scaleLoop fft e.use_normalization wv.mother wv.imag_freq wv.double_sided
      sc num newsize sc.num_scales b

/-- A concrete instance of the FFT collaborator for length-2 buffers: the
size-2 discrete Fourier transform `X0 = x0 + x1, X1 = x0 - x1` (exactly
rustfft's forward transform at that size; the concrete runs below only ever
transform length-2 buffers, and any other length is returned unchanged). -/
def fft2 : ℕ → List CF → List CF
  | _, [a, b] =>
    [CF.mk (a.re + b.re) (a.im + b.im), CF.mk (a.re - b.re) (a.im - b.im)]
  | _, l => l

/-- The identity instance of the FFT-collaborator parameter; it satisfies the
length-preservation contract and instantiates theorems whose conclusion does
not depend on the transform's values. -/
def fftId : ℕ → List CF → List CF := fun _ l => l

lemma getFreqLoop_eq (s : Scales) (n : ℕ) :
    getFreqLoop s n =
      if n ≤ s.scales.length
      then some ((s.scales.take n).map fun x => (s.fs : ℝ) / x)
      else none := by
  induction n with
  | zero => simp [getFreqLoop]
  | succ n ih =>
      rw [getFreqLoop, ih]
      by_cases h : n + 1 ≤ s.scales.length
      · have hlt : n < s.scales.length := by omega
        rw [if_pos (by omega : n ≤ s.scales.length), if_pos h]
        simp only [List.getElem?_eq_getElem hlt, Option.bind_eq_bind, Option.some_bind,
          List.take_succ, Option.toList_some, List.map_append, List.map_cons, List.map_nil]
      · rw [if_neg h]
        by_cases hn : n ≤ s.scales.length
        · rw [if_pos hn]
          simp [List.getElem?_eq_none (by omega : s.scales.length ≤ n)]
        · rw [if_neg hn]
          rfl

/-- C5: the claim says `generate(size)` replaces any previously stored mother
array, so after a second `generate(4)` the array would again have length 4. In
the source `generate` only pushes, so after two calls the array has length 8
while `width = 4`: the data-model invariant `mother.length == width` is broken
on every call after the first. -/
theorem C5_generate_appends_not_replaces :
    (((Wavelet.create 1).generate 4).generate 4).mother.length = 8 ∧
    (((Wavelet.create 1).generate 4).generate 4).width = 4 := by
  simp [Wavelet.create, Wavelet.generate]

/-- C9: on a freshly created wavelet with bandwidth `fb`, `generate(size)`
produces a mother array of length exactly `size` whose entry at `w` is
`sqrt(2*pi) * (1/pi)^(1/4) * exp(-(x^2)/2)` with
`x = 2*(w*(2*pi/size))*fb - 2*pi*fb`; `size = 0` gives the empty array. -/
theorem C9_generate_fresh_formula (fb : ℝ) (size : ℕ) :
    ((Wavelet.create fb).generate size).mother.length = size ∧
    ∀ w, w < size →
      ((Wavelet.create fb).generate size).mother[w]? =
        some (Real.sqrt (2 * Real.pi) * (1 / Real.pi) ^ ((1 : ℝ) / 4) *
          Real.exp (-((2 * ((w : ℝ) * (2 * Real.pi / (size : ℝ))) * fb -
            2 * Real.pi * fb) ^ 2) / 2)) := by
  constructor
  · simp [Wavelet.create, Wavelet.generate]
  · intro w hw
    simp [Wavelet.create, Wavelet.generate, List.getElem?_map,
      List.getElem?_range hw, motherEntry]

/-- Witness for C9 at `fb = 1`, `size = 8`, entry 3, and the `size = 0` case. -/
theorem C9_generate_fresh_formula_witness :
    ((Wavelet.create 1).generate 8).mother.length = 8 ∧
    ((Wavelet.create 1).generate 0).mother.length = 0 ∧
    ((Wavelet.create 1).generate 8).mother[3]? =
      some (Real.sqrt (2 * Real.pi) * (1 / Real.pi) ^ ((1 : ℝ) / 4) *
        Real.exp (-((2 * ((3 : ℝ) * (2 * Real.pi / (8 : ℝ))) * 1 -
          2 * Real.pi * 1) ^ 2) / 2)) := by
  refine ⟨(C9_generate_fresh_formula 1 8).1, (C9_generate_fresh_formula 1 0).1, ?_⟩
  have h := (C9_generate_fresh_formula 1 8).2 3 (by norm_num)
  simpa using h

/-- C3: the claim says every `f_high > sampling_rate/2` fails for every law.
The Log law's assert compares `f_high as usize <= fs / 2`, so with
`sampling_rate = 10` and `f_high = 5.5 > 5` the truncated comparison `5 <= 5`
passes and a `Scales` value is returned to the caller. -/
theorem C3_log_law_accepts_above_nyquist :
    (10 : ℝ) / 2 < 11 / 2 ∧
    (Scales.create ScaleTypes.Log 10 1 (11 / 2) 4).isSome = true := by
  refine ⟨by norm_num, ?_⟩
  have h5 : f64AsUsize (11 / 2 : ℝ) = 5 := by
    unfold f64AsUsize
    norm_num
    decide
  simp [Scales.create, calculate_logscale_array, h5]

/-- C10: for a `Scales` value satisfying the data-model invariant
`scales.length = num_scales`, `get_frequencies` reads only the length of its
argument, returns a vector of that length whose entry `i` is
`fs / scales[i]` whenever the length is at most `num_scales`, and panics
(index out of bounds) whenever the length exceeds `num_scales`. -/
theorem C10_get_frequencies_shape (s : Scales) (p q : List ℝ)
    (hinv : s.scales.length = s.num_scales) :
    (p.length = q.length → s.get_frequencies p = s.get_frequencies q) ∧
    (p.length ≤ s.num_scales →
      ∃ l, s.get_frequencies p = some l ∧ l.length = p.length ∧
        ∀ i, i < p.length → l[i]? = (s.scales[i]?).map fun x => (s.fs : ℝ) / x) ∧
    (s.num_scales < p.length → s.get_frequencies p = none) := by
  refine ⟨fun h => by rw [Scales.get_frequencies, Scales.get_frequencies, h], ?_, ?_⟩
  · intro hp
    refine ⟨(s.scales.take p.length).map fun x => (s.fs : ℝ) / x, ?_, ?_, ?_⟩
    · rw [Scales.get_frequencies, getFreqLoop_eq, if_pos (by omega)]
    · rw [List.length_map, List.length_take]
      omega
    · intro i hi
      have hi' : i < s.scales.length := by omega
      simp [List.getElem?_map, List.getElem?_take, hi, List.getElem?_eq_getElem hi']
  · intro hp
    rw [Scales.get_frequencies, getFreqLoop_eq, if_neg (by omega)]

/-- Witness for C10 on `scales = [2, 4]`, `fs = 8`, `num_scales = 2`: a
length-2 argument yields `[8/2, 8/4]`, a length-3 argument panics. -/
theorem C10_get_frequencies_shape_witness :
    (∃ l, (Scales.mk [(2 : ℝ), 4] 8 2).get_frequencies [0, 0] = some l ∧
      l.length = 2 ∧ l[0]? = some ((8 : ℝ) / 2)) ∧
    (Scales.mk [(2 : ℝ), 4] 8 2).get_frequencies [0, 0, 0] = none := by
  constructor
  · obtain ⟨-, h2, -⟩ :=
      C10_get_frequencies_shape (Scales.mk [(2 : ℝ), 4] 8 2) [0, 0] [0, 0] rfl
    obtain ⟨l, hl, hlen, hent⟩ := h2 (by norm_num)
    refine ⟨l, hl, by simpa using hlen, ?_⟩
    have h0 := hent 0 (by norm_num)
    simpa using h0
  · exact (C10_get_frequencies_shape (Scales.mk [(2 : ℝ), 4] 8 2) [0, 0, 0]
      [] rfl).2.2 (by norm_num)

/-- C4: the claim's Log-law formula is `base^(power0 + i*(power1-power0)/(count-1))`.
The source computes `power0 + dpower / ((count-1)*i)` instead. At
`fs = 8, f_low = 1, f_high = 4, count = 3` the entry at index 2 is
`2^(3/2)`, while the claim's formula yields `2^3 = 8` (the first three conjuncts
evaluate the code and the claim's formula; the last separates them). At
`i = 0` the source additionally divides by zero. -/
theorem C4_log_formula_divergence :
    ∃ s, Scales.create ScaleTypes.Log 8 1 4 3 = some s ∧
      s.scales[2]? = some ((2 : ℝ) ^ ((3 : ℝ) / 2)) ∧
      (2 : ℝ) ^ (Real.log ((8 : ℝ) / 4) / Real.log 2 +
        2 * (Real.log ((8 : ℝ) / 1) / Real.log 2 -
          Real.log ((8 : ℝ) / 4) / Real.log 2) / (3 - 1)) = (2 : ℝ) ^ (3 : ℝ) ∧
      (2 : ℝ) ^ ((3 : ℝ) / 2) ≠ (2 : ℝ) ^ (3 : ℝ) := by
  have h8 : Real.log (8 : ℝ) = 3 * Real.log 2 := by
    rw [show (8 : ℝ) = 2 ^ (3 : ℕ) by norm_num, Real.log_pow]
    push_cast
    ring
  have hguard : f64AsUsize (4 : ℝ) = 4 := by
    unfold f64AsUsize
    norm_num
    decide
  refine ⟨Scales.mk ((List.range 3).map (logscaleEntry 2 8 1 4 3)) 8 3, ?_, ?_, ?_, ?_⟩
  · simp [Scales.create, calculate_logscale_array, hguard]
  · have hent : logscaleEntry 2 8 1 4 3 2 = (2 : ℝ) ^ ((3 : ℝ) / 2) := by
      unfold logscaleEntry
      norm_num [h8]
    simp [List.getElem?_map, List.getElem?_range, hent]
  · norm_num [h8]
  · have hlt : (2 : ℝ) ^ ((3 : ℝ) / 2) < 2 ^ (3 : ℝ) := by
      rw [Real.rpow_lt_rpow_left_iff (by norm_num : (1 : ℝ) < 2)]
      norm_num
    exact ne_of_lt hlt

/-- C6 counterexample: under the Linear law with
`fs = 8, f_low = 1, f_high = 4, count = 2` (a valid range, `f_high = fs/2`),
the constructed scale at output index 0 is `8/1 + (3/2)*1 = 9.5`, so the
recovered frequency is `8 / 9.5 = 16/19 < 1 = f_low` — outside the requested
interval, refuting the claim for the Linear law. -/
theorem C6_counterexample_linear :
    ∃ s, Scales.create ScaleTypes.Linear 8 1 4 2 = some s ∧
      ∃ l, s.get_frequencies [0, 0] = some l ∧
        l[0]? = some ((16 : ℝ) / 19) ∧ (16 : ℝ) / 19 < 1 := by
  refine ⟨Scales.mk [(19 : ℝ) / 2, 8] 8 2, ?_, ?_⟩
  · simp only [Scales.create, calculate_linscale_array]
    rw [if_pos (by norm_num)]
    norm_num [List.range_succ]
  · refine ⟨[(16 : ℝ) / 19, 1], ?_, by norm_num, by norm_num⟩
    rw [Scales.get_frequencies]
    show getFreqLoop _ 2 = _
    rw [getFreqLoop_eq, if_pos (by norm_num)]
    norm_num

lemma linfreq_bounds (A f0 f1 nn ii : ℝ) (h0 : 0 < f0) (h01 : f0 < f1)
    (hA : 0 < A) (hn : 0 < nn) (hi0 : 0 ≤ ii) (hin : ii ≤ nn) :
    f0 ≤ A / (A / f1 + (A / f0 - A / f1) / nn * ii) ∧
    A / (A / f1 + (A / f0 - A / f1) / nn * ii) ≤ f1 := by
  have hf1 : (0 : ℝ) < f1 := lt_trans h0 h01
  have huv : A / f1 ≤ A / f0 := by
    rw [div_le_div_iff₀ hf1 h0]
    nlinarith
  have hstep : 0 ≤ (A / f0 - A / f1) / nn * ii :=
    mul_nonneg (div_nonneg (by linarith) hn.le) hi0
  have hxlo : A / f1 ≤ A / f1 + (A / f0 - A / f1) / nn * ii := by linarith
  have hkey : (A / f0 - A / f1) / nn * ii ≤ A / f0 - A / f1 := by
    rw [div_mul_eq_mul_div, div_le_iff₀ hn]
    exact mul_le_mul_of_nonneg_left hin (by linarith)
  have hxhi : A / f1 + (A / f0 - A / f1) / nn * ii ≤ A / f0 := by linarith
  have hxpos : 0 < A / f1 + (A / f0 - A / f1) / nn * ii :=
    lt_of_lt_of_le (div_pos hA hf1) hxlo
  constructor
  · rw [le_div_iff₀ hxpos]
    have h2 : f0 * (A / f0) = A := by field_simp
    nlinarith [mul_le_mul_of_nonneg_left hxhi h0.le]
  · rw [div_le_iff₀ hxpos]
    have h2 : f1 * (A / f1) = A := by field_simp
    nlinarith [mul_le_mul_of_nonneg_left hxlo hf1.le]

/-- C6 amended: the recovered-frequency property holds for the LinFreq law:
whenever `0 < f_low < f_high` and `Scales::create(LinFreq, ...)` succeeds, every
`sampling_rate / scales[i]` lies in `[f_low, f_high]`. (The Linear law violates
it, see the counterexample, and the Log law's entry 0 divides by zero.) -/
theorem C6_linfreq_frequencies_in_range (fs : ℕ) (f0 f1 : ℝ) (n i : ℕ) (s : Scales)
    (h0 : 0 < f0) (h01 : f0 < f1)
    (hcreate : Scales.create ScaleTypes.LinFreq fs f0 f1 n = some s)
    (hi : i < n) :
    ∃ x, s.scales[i]? = some x ∧ f0 ≤ (fs : ℝ) / x ∧ (fs : ℝ) / x ≤ f1 := by
  simp only [Scales.create, calculate_linfreq_array] at hcreate
  by_cases hg : f1 ≤ (fs : ℝ) / 2
  swap
  · rw [if_neg hg] at hcreate
    exact absurd hcreate (by simp)
  rw [if_pos hg, Option.map_some'] at hcreate
  obtain rfl := (Option.some.inj hcreate).symm
  have hf1 : (0 : ℝ) < f1 := lt_trans h0 h01
  have hA : (0 : ℝ) < (fs : ℝ) := by nlinarith
  have hnpos : (0 : ℝ) < (n : ℝ) := by
    have hn : 0 < n := by omega
    exact_mod_cast hn
  have hin : (i : ℝ) ≤ (n : ℝ) := le_of_lt (by exact_mod_cast hi)
  have hb := linfreq_bounds (fs : ℝ) f0 f1 (n : ℝ) (i : ℝ) h0 h01 hA hnpos
    (Nat.cast_nonneg i) hin
  exact ⟨(fs : ℝ) / f1 + ((fs : ℝ) / f0 - (fs : ℝ) / f1) / (n : ℝ) * (i : ℝ),
    by simp [List.getElem?_map, List.getElem?_range hi], hb.1, hb.2⟩


/-- Witness for the amended C6 at `fs = 8, f_low = 1, f_high = 4, count = 2`,
index 0: the LinFreq scales are `[2, 5]` and `8 / 2 = 4` lies in `[1, 4]`. -/
theorem C6_linfreq_frequencies_in_range_witness :
    ∃ x, (Scales.mk [(2 : ℝ), 5] 8 2).scales[0]? = some x ∧
      (1 : ℝ) ≤ ((8 : ℕ) : ℝ) / x ∧ ((8 : ℕ) : ℝ) / x ≤ 4 := by
  apply C6_linfreq_frequencies_in_range 8 1 4 2 0 (Scales.mk [(2 : ℝ), 5] 8 2)
    (by norm_num) (by norm_num) ?_ (by norm_num)
  simp only [Scales.create, calculate_linfreq_array]
  rw [if_pos (by norm_num)]
  norm_num [List.range_succ]

lemma natFloor_eq_of (x : ℝ) (n : ℕ) (h1 : (n : ℝ) ≤ x) (h2 : x < n + 1) :
    ⌊x⌋₊ = n := by
  rw [Nat.floor_eq_iff (le_trans (Nat.cast_nonneg n) h1)]
  exact ⟨h1, h2⟩

lemma dwmLoop_false_spec (mother : List ℝ) (scale : ℝ) (i_size : ℕ) (im : Bool)
    (k : ℕ) (b : List CF) (hk : k ≤ b.length)
    (htmp : ∀ n, n < k → dwmTmp scale i_size n < mother.length) :
    ∃ r, dwmLoop mother scale i_size im false k b = some r ∧
      r.length = b.length ∧
      (∀ n, n < k → ∃ c m, b[n]? = some c ∧
        mother[dwmTmp scale i_size n]? = some m ∧
        r[n]? = some (CF.mk (c.re * m) (c.im * m))) ∧
      (∀ n, k ≤ n → r[n]? = b[n]?) := by
  induction k with
  | zero =>
      exact ⟨b, rfl, rfl, fun n hn => absurd hn (by omega), fun n _ => rfl⟩
  | succ k ih =>
      obtain ⟨r, hr, hlen, hset, hrest⟩ := ih (by omega) (fun n hn => htmp n (by omega))
      have hbk : k < b.length := by omega
      have hmk : dwmTmp scale i_size k < mother.length := htmp k (by omega)
      have hrk : r[k]? = some b[k] := by
        rw [hrest k le_rfl, List.getElem?_eq_getElem hbk]
      have hentry : dwmEntry mother scale i_size im false k r =
          some (r.set k (CF.mk (b[k].re * mother[dwmTmp scale i_size k])
            (b[k].im * mother[dwmTmp scale i_size k]))) := by
        rw [dwmEntry]
        simp only [Bool.false_eq_true, if_false, List.getElem?_eq_getElem hmk, hrk,
          Option.bind_eq_bind, Option.some_bind]
        rw [if_pos (by omega : k < r.length)]
      refine ⟨r.set k (CF.mk (b[k].re * mother[dwmTmp scale i_size k])
        (b[k].im * mother[dwmTmp scale i_size k])), ?_, ?_, ?_, ?_⟩
      · rw [dwmLoop, hr, Option.some_bind, hentry]
      · rw [List.length_set, hlen]
      · intro n hn
        rcases Nat.lt_or_ge n k with h | h
        · obtain ⟨c, m, hc, hm, hr'⟩ := hset n h
          exact ⟨c, m, hc, hm, by rw [List.getElem?_set_ne (by omega), hr']⟩
        · have hnk : n = k := by omega
          subst hnk
          refine ⟨b[n], mother[dwmTmp scale i_size n],
            List.getElem?_eq_getElem hbk, List.getElem?_eq_getElem hmk, ?_⟩
          exact List.getElem?_set_eq_of_lt _ (by omega)
      · intro n hn
        rw [List.getElem?_set_ne (by omega), hrest n (by omega)]

/-- C8 amended: with `double_sided = false`, `scale > 0`, `1 ≤ i_size ≤
mother.length` and a buffer at least `endpoint` long, exactly the entries at
indices `n < endpoint = min(i_size/2, floor(i_size*2/scale))` are modified,
each multiplied (both parts) by `mother[min(i_size - 1, floor(scale/2) * n)]`
— the truncation applies to `scale/2` alone before multiplying by `n`, not to
the product `(scale/2)*n` as the claim states — and entries at `n ≥ endpoint`
keep their original spectrum value. -/
theorem C8_dwm_single_sided (b : List CF) (mother : List ℝ) (scale : ℝ)
    (i_size : ℕ) (hscale : 0 < scale) (h1 : 1 ≤ i_size)
    (hm : i_size ≤ mother.length)
    (hb : min (i_size / 2) (⌊(i_size : ℝ) * 2 / scale⌋₊) ≤ b.length) :
    ∃ r, daughter_wavelet_multiplication b mother scale i_size false false = some r ∧
      r.length = b.length ∧
      (∀ n, n < min (i_size / 2) (⌊(i_size : ℝ) * 2 / scale⌋₊) →
        ∃ c m, b[n]? = some c ∧
          mother[min (i_size - 1) (⌊scale / 2⌋₊ * n)]? = some m ∧
          r[n]? = some (CF.mk (c.re * m) (c.im * m))) ∧
      (∀ n, min (i_size / 2) (⌊(i_size : ℝ) * 2 / scale⌋₊) ≤ n → r[n]? = b[n]?) := by
  have hhalf : f64AsUsize ((i_size : ℝ) / 2) = i_size / 2 := by
    rw [f64AsUsize, Int.floor_toNat, show ((2 : ℝ)) = ((2 : ℕ) : ℝ) by norm_num,
      Nat.floor_div_nat, Nat.floor_natCast]
  have hflo : f64AsUsize ((i_size : ℝ) * 2 / scale) = ⌊(i_size : ℝ) * 2 / scale⌋₊ := by
    rw [f64AsUsize, Int.floor_toNat]
  have hmax : f64AsUsize ((i_size : ℝ) - 1) = i_size - 1 := by
    rw [f64AsUsize, Int.floor_toNat,
      show ((i_size : ℝ) - 1) = ((i_size - 1 : ℕ) : ℝ) by
        push_cast [Nat.cast_sub h1]
        ring,
      Nat.floor_natCast]
  have hstep : f64AsUsize (scale / 2) = ⌊scale / 2⌋₊ := by
    rw [f64AsUsize, Int.floor_toNat]
  have htmp_eq : ∀ n, dwmTmp scale i_size n = min (i_size - 1) (⌊scale / 2⌋₊ * n) := by
    intro n
    rw [dwmTmp, hmax, hstep]
  obtain ⟨r, hr, hlen, hset, hrest⟩ := dwmLoop_false_spec mother scale i_size false
    (min (f64AsUsize ((i_size : ℝ) / 2)) (f64AsUsize ((i_size : ℝ) * 2 / scale))) b
    (by rw [hhalf, hflo]; exact hb)
    (fun n _ => by
      rw [htmp_eq]
      calc min (i_size - 1) (⌊scale / 2⌋₊ * n) ≤ i_size - 1 := min_le_left _ _
        _ < i_size := by omega
        _ ≤ mother.length := hm)
  refine ⟨r, ?_, hlen, ?_, ?_⟩
  · rw [daughter_wavelet_multiplication, hr]
  · intro n hn
    obtain ⟨c, m, hc, hmm, hr'⟩ := hset n (by rw [hhalf, hflo]; exact hn)
    exact ⟨c, m, hc, by rw [htmp_eq] at hmm; exact hmm, hr'⟩
  · intro n hn
    exact hrest n (by rw [hhalf, hflo]; exact hn)

/-- Witness for the amended C8: buffer `[2+3i, 5+7i]`, mother `[10, 20]`,
`scale = 4`, `i_size = 2`: endpoint is 1, entry 0 is multiplied by
`mother[min(1, 2*0)] = 10`, entry 1 keeps its original value. -/
theorem C8_dwm_single_sided_witness :
    ∃ r, daughter_wavelet_multiplication [CF.mk 2 3, CF.mk 5 7] [10, 20] 4 2
        false false = some r ∧
      r.length = 2 ∧ r[0]? = some (CF.mk (2 * 10) (3 * 10)) ∧
      r[1]? = some (CF.mk 5 7) := by
  have hend : min (2 / 2) (⌊((2 : ℕ) : ℝ) * 2 / 4⌋₊) = 1 := by
    norm_num
  obtain ⟨r, hr, hlen, hset, hrest⟩ := C8_dwm_single_sided [CF.mk 2 3, CF.mk 5 7]
    [10, 20] 4 2 (by norm_num) (by norm_num) (by norm_num) (by rw [hend]; norm_num)
  refine ⟨r, hr, by simpa using hlen, ?_, ?_⟩
  · obtain ⟨c, m, hc, hm, hr'⟩ := hset 0 (by rw [hend]; norm_num)
    have hc' : c = CF.mk 2 3 := by
      simpa using hc.symm
    have hm' : m = 10 := by
      rw [show min (2 - 1) (⌊(4 : ℝ) / 2⌋₊ * 0) = 0 by simp] at hm
      simpa using hm.symm
    subst hc'
    subst hm'
    simpa using hr'
  · rw [hrest 1 (by rw [hend])]
    simp

/-- C8 counterexample: buffer of eight entries `1+1i`, mother
`[0,10,20,30,40,50,60,70]`, `scale = 3`, `i_size = 8`. The code multiplies
entry 3 by `mother[min(7, trunc(1.5)*3)] = mother[3] = 30`, while the claim's
`tmp = min(7, floor((3/2)*3)) = 4` predicts multiplication by
`mother[4] = 40`: the actual entry `(30, 30)` differs from the predicted
`(1*40, 1*40)`. -/
theorem C8_counterexample :
    ∃ r, daughter_wavelet_multiplication (List.replicate 8 (CF.mk 1 1))
        [0, 10, 20, 30, 40, 50, 60, 70] 3 8 false false = some r ∧
      r[3]? = some (CF.mk 30 30) ∧
      ([(0 : ℝ), 10, 20, 30, 40, 50, 60, 70])[min (8 - 1) (⌊(3 : ℝ) / 2 * 3⌋₊)]? =
        some 40 ∧
      CF.mk (30 : ℝ) 30 ≠ CF.mk ((1 : ℝ) * 40) ((1 : ℝ) * 40) := by
  have h163 : (⌊((8 : ℕ) : ℝ) * 2 / 3⌋₊) = 5 := by
    rw [show ((8 : ℕ) : ℝ) * 2 / 3 = 16 / 3 by norm_num]
    exact natFloor_eq_of _ 5 (by norm_num) (by norm_num)
  have h32 : (⌊(3 : ℝ) / 2⌋₊) = 1 := natFloor_eq_of _ 1 (by norm_num) (by norm_num)
  have h92 : (⌊(3 : ℝ) / 2 * 3⌋₊) = 4 := by
    rw [show (3 : ℝ) / 2 * 3 = 9 / 2 by norm_num]
    exact natFloor_eq_of _ 4 (by norm_num) (by norm_num)
  obtain ⟨r, hr, hlen, hset, hrest⟩ := C8_dwm_single_sided
    (List.replicate 8 (CF.mk 1 1)) [0, 10, 20, 30, 40, 50, 60, 70] 3 8
    (by norm_num) (by norm_num) (by norm_num) (by rw [h163]; norm_num)
  refine ⟨r, hr, ?_, ?_, ?_⟩
  · obtain ⟨c, m, hc, hm, hr'⟩ := hset 3 (by rw [h163]; norm_num)
    have hc' : c = CF.mk 1 1 := by
      rw [List.getElem?_replicate] at hc
      simpa using hc.symm
    have hm' : m = 30 := by
      rw [show min (8 - 1) (⌊(3 : ℝ) / 2⌋₊ * 3) = 3 by rw [h32]; norm_num] at hm
      simpa using hm.symm
    subst hc'
    subst hm'
    simpa using hr'
  · rw [show min (8 - 1) (⌊(3 : ℝ) / 2 * 3⌋₊) = 4 by rw [h92]; norm_num]
    rfl
  · intro h
    have := congrArg CF.re h
    simp only at this
    norm_num at this

lemma mirrorStep_shape (newsize i : ℕ) (b r : List CF)
    (h : mirrorStep newsize i b = some r) : ∃ j x, r = b.set j x := by
  rw [mirrorStep] at h
  simp only [Option.bind_eq_bind, Option.bind_eq_some] at h
  obtain ⟨v, -, h⟩ := h
  split_ifs at h with hlt
  exact ⟨_, _, (Option.some.inj h).symm⟩

lemma normStep_shape (newsize n : ℕ) (b r : List CF)
    (h : normStep newsize n b = some r) : ∃ j x, r = b.set j x := by
  rw [normStep] at h
  simp only [Option.bind_eq_bind, Option.bind_eq_some] at h
  obtain ⟨v, -, h⟩ := h
  split_ifs at h with hlt
  exact ⟨_, _, (Option.some.inj h).symm⟩

lemma dwmEntry_shape (mother : List ℝ) (scale : ℝ) (i_size : ℕ) (im ds : Bool)
    (n : ℕ) (b r : List CF) (h : dwmEntry mother scale i_size im ds n b = some r) :
    ∃ j x, r = b.set j x := by
  rw [dwmEntry] at h
  cases ds
  · simp only [Bool.false_eq_true, if_false, Option.bind_eq_bind,
      Option.bind_eq_some] at h
    obtain ⟨m, -, c, -, h⟩ := h
    split_ifs at h with hlt
    exact ⟨_, _, (Option.some.inj h).symm⟩
  · rw [if_pos rfl] at h
    simp only [Option.bind_eq_bind, Option.bind_eq_some] at h
    obtain ⟨m, -, c, -, h⟩ := h
    split_ifs at h with hlt
    all_goals exact ⟨_, _, (Option.some.inj h).symm⟩

lemma mirrorLoop_length (newsize : ℕ) : ∀ (k : ℕ) (b r : List CF),
    mirrorLoop newsize k b = some r → r.length = b.length := by
  intro k
  induction k with
  | zero =>
      intro b r h
      rw [mirrorLoop] at h
      obtain rfl := Option.some.inj h
      rfl
  | succ k ih =>
      intro b r h
      rw [mirrorLoop] at h
      obtain ⟨b1, hb1, hs⟩ := Option.bind_eq_some.mp h
      obtain ⟨j, x, rfl⟩ := mirrorStep_shape _ _ _ _ hs
      rw [List.length_set]
      exact ih b b1 hb1

lemma normLoop_length (newsize : ℕ) : ∀ (k : ℕ) (b r : List CF),
    normLoop newsize k b = some r → r.length = b.length := by
  intro k
  induction k with
  | zero =>
      intro b r h
      rw [normLoop] at h
      obtain rfl := Option.some.inj h
      rfl
  | succ k ih =>
      intro b r h
      rw [normLoop] at h
      obtain ⟨b1, hb1, hs⟩ := Option.bind_eq_some.mp h
      obtain ⟨j, x, rfl⟩ := normStep_shape _ _ _ _ hs
      rw [List.length_set]
      exact ih b b1 hb1

lemma dwmLoop_length (mother : List ℝ) (scale : ℝ) (i_size : ℕ) (im ds : Bool) :
    ∀ (k : ℕ) (b r : List CF),
    dwmLoop mother scale i_size im ds k b = some r → r.length = b.length := by
  intro k
  induction k with
  | zero =>
      intro b r h
      rw [dwmLoop] at h
      obtain rfl := Option.some.inj h
      rfl
  | succ k ih =>
      intro b r h
      rw [dwmLoop] at h
      obtain ⟨b1, hb1, hs⟩ := Option.bind_eq_some.mp h
      obtain ⟨j, x, rfl⟩ := dwmEntry_shape _ _ _ _ _ _ _ _ hs
      rw [List.length_set]
      exact ih b b1 hb1

lemma scaleStep_length (fft : ℕ → List CF → List CF)
    (hfft : ∀ n l, (fft n l).length = l.length) (norm : Bool) (mother : List ℝ)
    (im ds : Bool) (sc : Scales) (num newsize i : ℕ) (b r : List CF)
    (h : scaleStep fft norm mother im ds sc num newsize i b = some r) :
    r.length = b.length := by
  rw [scaleStep] at h
  simp only [Option.bind_eq_bind, Option.bind_eq_some] at h
  obtain ⟨s, -, b1, hb1, h⟩ := h
  rw [daughter_wavelet_multiplication] at hb1
  have h1 : b1.length = b.length := dwmLoop_length _ _ _ _ _ _ _ _ hb1
  cases norm
  · simp only [Bool.false_eq_true, if_false] at h
    obtain rfl := (Option.some.inj h).symm
    rw [hfft, h1]
  · rw [if_pos rfl] at h
    have h2 := normLoop_length _ _ _ _ h
    rw [h2, hfft, h1]

lemma scaleLoop_length (fft : ℕ → List CF → List CF)
    (hfft : ∀ n l, (fft n l).length = l.length) (norm : Bool) (mother : List ℝ)
    (im ds : Bool) (sc : Scales) (num newsize : ℕ) : ∀ (k : ℕ) (b r : List CF),
    scaleLoop fft norm mother im ds sc num newsize k b = some r →
      r.length = b.length := by
  intro k
  induction k with
  | zero =>
      intro b r h
      rw [scaleLoop] at h
      obtain rfl := Option.some.inj h
      rfl
  | succ k ih =>
      intro b r h
      rw [scaleLoop] at h
      obtain ⟨b1, hb1, hs⟩ := Option.bind_eq_some.mp h
      have h2 := scaleStep_length fft hfft norm mother im ds sc num newsize k b1 r hs
      rw [h2]
      exact ih b b1 hb1

lemma fft2_length : ∀ (n : ℕ) (l : List CF), (fft2 n l).length = l.length := by
  intro n l
  rcases l with _ | ⟨a, _ | ⟨b, _ | ⟨c, t⟩⟩⟩ <;> rfl

lemma dwm_scale8_noop (b : List CF) (mother : List ℝ) :
    daughter_wavelet_multiplication b mother 8 2 false false = some b := by
  have h1 : f64AsUsize (((2 : ℕ) : ℝ) / 2) = 1 := by
    unfold f64AsUsize
    norm_num
  have h2 : f64AsUsize (((2 : ℕ) : ℝ) * 2 / 8) = 0 := by
    unfold f64AsUsize
    norm_num
  rw [daughter_wavelet_multiplication, h1, h2]
  rfl

lemma scaleLoop_one (fft : ℕ → List CF → List CF) (norm : Bool) (M : List ℝ)
    (im ds : Bool) (sc : Scales) (num newsize : ℕ) (b : List CF) :
    scaleLoop fft norm M im ds sc num newsize 1 b =
      (some b).bind (scaleStep fft norm M im ds sc num newsize 0) := rfl

lemma scaleLoop_two (fft : ℕ → List CF → List CF) (norm : Bool) (M : List ℝ)
    (im ds : Bool) (sc : Scales) (num newsize : ℕ) (b : List CF) :
    scaleLoop fft norm M im ds sc num newsize 2 b =
      ((some b).bind (scaleStep fft norm M im ds sc num newsize 0)).bind
        (scaleStep fft norm M im ds sc num newsize 1) := rfl

lemma scaleStep_run8 (M : List ℝ) (sc : Scales) (i : ℕ) (x y : CF)
    (hsc : sc.scales[i]? = some 8) :
    scaleStep fft2 true M false false sc 2 2 i [x, y] =
      some [CF.mk ((x.re + y.re) / ((2 : ℕ) : ℝ)) ((x.im + y.im) / ((2 : ℕ) : ℝ)),
        CF.mk ((x.re - y.re) / ((2 : ℕ) : ℝ)) ((x.im - y.im) / ((2 : ℕ) : ℝ))] := by
  rw [scaleStep]
  simp only [Option.bind_eq_bind]
  rw [hsc, Option.some_bind, dwm_scale8_noop, Option.some_bind]
  rfl

lemma cwt_run2 :
    FastCWT.cwt fft2 (FastCWT.create (Wavelet.create 1) true) 2 [1, 0]
      (Scales.mk [8, 8] 2 2) = some [CF.mk (1 / 2) 0, CF.mk (1 / 2) 0] := by
  have hnp : nextPow2 2 = 2 := by
    rw [nextPow2]
    norm_num [Nat.clog]
  simp only [FastCWT.cwt, FastCWT.create, Wavelet.create, Wavelet.generate, hnp]
  rw [show (([1, 0] : List ℝ).map fun d => CF.mk d 0) = [CF.mk 1 0, CF.mk 0 0]
    from rfl]
  rw [show ([CF.mk (1 : ℝ) 0, CF.mk 0 0] : List CF).length = 2 from rfl]
  rw [show fft2 2 [CF.mk (1 : ℝ) 0, CF.mk 0 0] =
    [CF.mk ((1 : ℝ) + 0) (0 + 0), CF.mk (1 - 0) (0 - 0)] from rfl]
  rw [show (2 : ℕ) / 2 - 1 = 0 from rfl]
  rw [show mirrorLoop 2 0 [CF.mk ((1 : ℝ) + 0) (0 + 0), CF.mk (1 - 0) (0 - 0)] =
    some [CF.mk ((1 : ℝ) + 0) (0 + 0), CF.mk (1 - 0) (0 - 0)] from rfl]
  rw [Option.some_bind]
  rw [scaleLoop_two, Option.some_bind]
  rw [scaleStep_run8 _ (Scales.mk [8, 8] 2 2) 0 _ _ rfl, Option.some_bind,
    scaleStep_run8 _ (Scales.mk [8, 8] 2 2) 1 _ _ rfl]
  norm_num [CF.mk.injEq]

lemma cwt_run1 :
    FastCWT.cwt fft2 (FastCWT.create (Wavelet.create 1) true) 2 [1, 0]
      (Scales.mk [8] 2 1) = some [CF.mk 1 0, CF.mk 0 0] := by
  have hnp : nextPow2 2 = 2 := by
    rw [nextPow2]
    norm_num [Nat.clog]
  simp only [FastCWT.cwt, FastCWT.create, Wavelet.create, Wavelet.generate, hnp]
  rw [show (([1, 0] : List ℝ).map fun d => CF.mk d 0) = [CF.mk 1 0, CF.mk 0 0]
    from rfl]
  rw [show ([CF.mk (1 : ℝ) 0, CF.mk 0 0] : List CF).length = 2 from rfl]
  rw [show fft2 2 [CF.mk (1 : ℝ) 0, CF.mk 0 0] =
    [CF.mk ((1 : ℝ) + 0) (0 + 0), CF.mk (1 - 0) (0 - 0)] from rfl]
  rw [show (2 : ℕ) / 2 - 1 = 0 from rfl]
  rw [show mirrorLoop 2 0 [CF.mk ((1 : ℝ) + 0) (0 + 0), CF.mk (1 - 0) (0 - 0)] =
    some [CF.mk ((1 : ℝ) + 0) (0 + 0), CF.mk (1 - 0) (0 - 0)] from rfl]
  rw [Option.some_bind]
  rw [scaleLoop_one, Option.some_bind]
  rw [scaleStep_run8 _ (Scales.mk [8] 2 1) 0 _ _ rfl]
  norm_num [CF.mk.injEq]

/-- C1: the claim says `cwt` returns `num_scales` output rows, each of the
padded power-of-two length. In the source all scales share one buffer and that
single buffer is returned: the result of a successful `cwt` call is one flat
complex vector whose length is `input.len()` — neither `num_scales` rows nor
(in general) the padded length. -/
theorem C1_cwt_flat_buffer (fft : ℕ → List CF → List CF)
    (hfft : ∀ n l, (fft n l).length = l.length) (e : FastCWT) (num : ℕ)
    (input : List ℝ) (sc : Scales) (r : List CF)
    (h : FastCWT.cwt fft e num input sc = some r) :
    r.length = input.length := by
  simp only [FastCWT.cwt] at h
  obtain ⟨b, hb, hs⟩ := Option.bind_eq_some.mp h
  have h1 := mirrorLoop_length (nextPow2 num) (nextPow2 num / 2 - 1) _ _ hb
  have h2 := scaleLoop_length fft hfft _ _ _ _ _ _ _ _ _ _ hs
  rw [h2, h1, hfft, List.length_map]

/-- Witness for C1: a call with two scales returns one flat buffer of length
2 = input length, not two rows. -/
theorem C1_cwt_flat_buffer_witness :
    ∃ r, FastCWT.cwt fft2 (FastCWT.create (Wavelet.create 1) true) 2 [1, 0]
        (Scales.mk [8, 8] 2 2) = some r ∧ r.length = 2 := by
  refine ⟨[CF.mk (1 / 2) 0, CF.mk (1 / 2) 0], cwt_run2, ?_⟩
  have h := C1_cwt_flat_buffer fft2 fft2_length _ _ _ _ _ cwt_run2
  simpa using h

/-- C2: the claim says each scale is processed on its own copy of the
post-mirror spectrum, independently of the other scales. In the source every
scale iteration mutates the one lock-guarded shared buffer: with two identical
scales the run returns `[1/2, 1/2]` (the second iteration transformed the
first iteration's output), while processing that same scale alone on the
post-mirror spectrum returns `[1, 0]` — the two disagree, so the processing of
a scale depends on the other scale indices. -/
theorem C2_scales_share_mutable_buffer :
    FastCWT.cwt fft2 (FastCWT.create (Wavelet.create 1) true) 2 [1, 0]
      (Scales.mk [8, 8] 2 2) = some [CF.mk (1 / 2) 0, CF.mk (1 / 2) 0] ∧
    FastCWT.cwt fft2 (FastCWT.create (Wavelet.create 1) true) 2 [1, 0]
      (Scales.mk [8] 2 1) = some [CF.mk 1 0, CF.mk 0 0] ∧
    ([CF.mk ((1 : ℝ) / 2) 0, CF.mk (1 / 2) 0] : List CF) ≠
      [CF.mk 1 0, CF.mk 0 0] := by
  refine ⟨cwt_run2, cwt_run1, ?_⟩
  intro hEq
  simp only [List.cons.injEq, CF.mk.injEq] at hEq
  norm_num at hEq

/-- C7: the claim says an input shorter than the padded size is rejected at
entry with a `DimensionMismatch` error. The source has no entry check: with
`target_length = 4` and a length-3 input the mirror step writes `buffer[3]` on
a 3-element buffer and panics inside the transform (modelled as `none`), for
every FFT collaborator and engine. -/
theorem C7_short_input_panics_inside (fft : ℕ → List CF → List CF)
    (hfft : ∀ n l, (fft n l).length = l.length) (e : FastCWT) (sc : Scales) :
    FastCWT.cwt fft e 4 [1, 2, 3] sc = none := by
  have hnp : nextPow2 4 = 4 := by
    rw [nextPow2]
    norm_num [Nat.clog]
  simp only [FastCWT.cwt, hnp]
  have hlen : (fft (([1, 2, 3] : List ℝ).map fun d => CF.mk d 0).length
      (([1, 2, 3] : List ℝ).map fun d => CF.mk d 0)).length = 3 := by
    rw [hfft]
    rfl
  rw [show (4 : ℕ) / 2 - 1 = 1 from rfl]
  rw [show ∀ b : List CF, mirrorLoop 4 1 b = (mirrorLoop 4 0 b).bind (mirrorStep 4 1)
    from fun b => rfl]
  rw [show ∀ b : List CF, mirrorLoop 4 0 b = some b from fun b => rfl]
  rw [Option.some_bind, mirrorStep]
  rw [List.getElem?_eq_getElem (by rw [hlen]; norm_num)]
  simp only [Option.bind_eq_bind, Option.some_bind]
  rw [if_neg (by rw [hlen]; norm_num)]
  rfl

/-- Witness for C7 with the identity FFT instance and a concrete engine and
scale set. -/
theorem C7_short_input_panics_inside_witness :
    FastCWT.cwt fftId (FastCWT.create (Wavelet.create 1) false) 4 [1, 2, 3]
      (Scales.mk [2] 1 1) = none :=
  C7_short_input_panics_inside fftId (fun _ _ => rfl) _ _

end

end Fastcwt
